import Mathlib

/-!
Shallow embedding of the core of `ftp_downloader.py`: the retention
manager (`cleanup_old_backups` together with its inner `file_key`), the
archive naming scheme of `create_zip_from_folder`, and the remote tree
walker `download_sftp_dir`.

Modelling conventions:
* Python strings are lists of unicode characters (`PyStr`).
* Python floats that carry POSIX timestamps (`datetime.timestamp()`,
  `os.path.getmtime`) are exact integer counts of microseconds since the
  Unix epoch (the resolution of the embedded timestamps; floats resolve
  microseconds throughout the date range `datetime` admits).
* The process time zone is taken to be UTC, so `datetime.timestamp()` of a
  naive datetime is the calendar offset from the Unix epoch.
* `\d` in the `_strptime` regular expressions is modelled as the ASCII
  digits; the regex is compiled with IGNORECASE, so the literal letters of
  the format match either case, which the model reproduces.
* Fallible calls (`os.listdir`, `os.path.getmtime`, `os.remove`) are passed
  in as explicit results/oracles; a raised exception is an `error`/`none`
  value.
-/

abbrev PyStr := List Char

def pys (s : String) : PyStr := s.data

/-! ### Digits, format printing and `strptime` parsing -/

def isDig (c : Char) : Bool := '0' ≤ c && c ≤ '9'

def digitVal (c : Char) : Nat := c.toNat - 48

def digitChar : Nat → Char
  | 0 => '0' | 1 => '1' | 2 => '2' | 3 => '3' | 4 => '4'
  | 5 => '5' | 6 => '6' | 7 => '7' | 8 => '8' | _ => '9'

/-- Zero-padded fixed-width decimal rendering, as `strftime` emits for
`%Y` (width 4), `%m` etc. (width 2) and `%f` (width 6). -/
def pad : Nat → Nat → PyStr
  | 0, _ => []
  | w + 1, n => pad w (n / 10) ++ [digitChar (n % 10)]

/-- Greedily read at most `k` leading decimal digits. -/
def readDigitsUpTo : Nat → PyStr → (List Char × PyStr)
  | 0, s => ([], s)
  | _ + 1, [] => ([], [])
  | k + 1, c :: r =>
    if isDig c then
      let p := readDigitsUpTo k r
      (c :: p.1, p.2)
    else ([], c :: r)

def digitsVal (acc : Nat) (l : List Char) : Nat :=
  l.foldl (fun a c => a * 10 + digitVal c) acc

/-- `%Y` in `_strptime`: exactly four digits. -/
def readFixed4 (s : PyStr) : Option (Nat × PyStr) :=
  if (readDigitsUpTo 4 s).1.length = 4 then
    some (digitsVal 0 (readDigitsUpTo 4 s).1, (readDigitsUpTo 4 s).2)
  else none

/-- `%m`, `%d`, `%H`, `%M`, `%S` in `_strptime`: one or two digits. -/
def read1to2 (s : PyStr) : Option (Nat × PyStr) :=
  if (readDigitsUpTo 2 s).1.isEmpty then none
  else some (digitsVal 0 (readDigitsUpTo 2 s).1, (readDigitsUpTo 2 s).2)

/-- `%f` in `_strptime`: one to six digits, right-padded with zeros to a
microsecond count. -/
def read1to6 (s : PyStr) : Option (Nat × PyStr) :=
  if (readDigitsUpTo 6 s).1.isEmpty then none
  else some (digitsVal 0 (readDigitsUpTo 6 s).1 * 10 ^ (6 - (readDigitsUpTo 6 s).1.length),
    (readDigitsUpTo 6 s).2)

/-- One literal character of the format.  `_strptime` compiles its regex
with IGNORECASE, so letters match either case. -/
def lit (c : Char) : PyStr → Option PyStr
  | [] => none
  | a :: r => if a.toLower = c.toLower then some r else none

structure DT where
  year : Nat
  month : Nat
  day : Nat
  hour : Nat
  minute : Nat
  second : Nat
  usec : Nat
deriving DecidableEq, Repr

def isLeap (y : Nat) : Bool := (y % 4 == 0 && y % 100 != 0) || y % 400 == 0

def daysInMonth (y m : Nat) : Nat :=
  if m = 2 then (if isLeap y then 29 else 28)
  else if m = 4 ∨ m = 6 ∨ m = 9 ∨ m = 11 then 30 else 31

/-- The range checks `datetime.datetime` performs on construction; a value
outside them raises `ValueError`, which `file_key` catches. -/
def validDT (d : DT) : Bool :=
  1 ≤ d.year && d.year ≤ 9999 &&
  1 ≤ d.month && d.month ≤ 12 &&
  1 ≤ d.day && d.day ≤ daysInMonth d.year d.month &&
  d.hour ≤ 23 && d.minute ≤ 59 && d.second ≤ 59 && d.usec ≤ 999999

/-- `datetime.strptime(name, '%Y-%m-%dT%H-%M-%S.%fZ')`, with `none` for a
raised `ValueError`. -/
def parseTimestamp (s : PyStr) : Option DT :=
  (readFixed4 s).bind fun p1 =>
  (lit '-' p1.2).bind fun s2 =>
  (read1to2 s2).bind fun p2 =>
  (lit '-' p2.2).bind fun s3 =>
  (read1to2 s3).bind fun p3 =>
  (lit 'T' p3.2).bind fun s4 =>
  (read1to2 s4).bind fun p4 =>
  (lit '-' p4.2).bind fun s5 =>
  (read1to2 s5).bind fun p5 =>
  (lit '-' p5.2).bind fun s6 =>
  (read1to2 s6).bind fun p6 =>
  (lit '.' p6.2).bind fun s7 =>
  (read1to6 s7).bind fun p7 =>
  (lit 'Z' p7.2).bind fun s8 =>
  if s8 = [] then
    let dt : DT := ⟨p1.1, p2.1, p3.1, p4.1, p5.1, p6.1, p7.1⟩
    if validDT dt then some dt else none
  else none

/-- Days from 1970-01-01 of a proleptic-Gregorian civil date (the standard
era/year-of-era computation); every call has `1 ≤ y`. -/
def daysFromCivil (y m d : Nat) : Int :=
  let y' := y - (if m ≤ 2 then 1 else 0)
  let era := y' / 400
  let yoe := y' % 400
  let mp := if m ≤ 2 then m + 9 else m - 3
  let doy := (153 * mp + 2) / 5 + d - 1
  let doe := yoe * 365 + yoe / 4 - yoe / 100 + doy
  ((era * 146097 + doe : Nat) : Int) - 719468

/-- `datetime.timestamp()` of a naive datetime, with the process time zone
modelled as UTC: microseconds since the Unix epoch. -/
def toTimestamp (d : DT) : Int :=
  daysFromCivil d.year d.month d.day * 86400000000
    + d.hour * 3600000000 + d.minute * 60000000 + d.second * 1000000 + d.usec

/-- `datetime.strftime('%Y-%m-%dT%H-%M-%S.%fZ')` of `create_zip_from_folder`. -/
def formatTimestamp (d : DT) : PyStr :=
  pad 4 d.year ++ '-' :: pad 2 d.month ++ '-' :: pad 2 d.day ++ 'T' :: pad 2 d.hour
    ++ '-' :: pad 2 d.minute ++ '-' :: pad 2 d.second ++ '.' :: pad 6 d.usec ++ ['Z']

/-- The archive file name `create_zip_from_folder` produces for the instant
`d`: `zip_prefix` plus an underscore when the prefix is non-empty, then the
timestamp, then `.zip`. -/
def zipName (zp : PyStr) (d : DT) : PyStr :=
  (if zp ≠ [] then zp ++ ['_'] else []) ++ formatTimestamp d ++ pys ".zip"

/-! ### `file_key` of `cleanup_old_backups` -/

/-- Everything strictly before the last occurrence of `".zip"`, when there
is one: the part `name.rsplit('.zip', 1)[0]` keeps in that case. -/
def rsplitZipPre : PyStr → Option PyStr
  | [] => none
  | c :: cs =>
    match rsplitZipPre cs with
    | some t => some (c :: t)
    | none => if (pys ".zip").isPrefixOf (c :: cs) then some [] else none

/-- `name.rsplit('.zip', 1)[0]`. -/
def rsplitZip (s : PyStr) : PyStr := (rsplitZipPre s).getD s

/-- The prefix-stripping step at the top of `file_key`. -/
def stripPfx (pfx fname : PyStr) : PyStr :=
  if !pfx.isEmpty && (pfx ++ ['_']).isPrefixOf fname then fname.drop (pfx.length + 1)
  else if !pfx.isEmpty && pfx.isPrefixOf fname then fname.drop pfx.length
  else fname

/-- The string `file_key` hands to `datetime.strptime`. -/
def strippedName (pfx fname : PyStr) : PyStr := rsplitZip (stripPfx pfx fname)

/-- `file_key(fname)` inside `cleanup_old_backups`.  `mtime fname` models
`os.path.getmtime(os.path.join(output_dir, fname))`, `none` when that call
raises (then the key is the literal `0`).  Keys are microseconds. -/
def file_key (pfx : PyStr) (mtime : PyStr → Option Int) (fname : PyStr) : Int :=
  match parseTimestamp (strippedName pfx fname) with
  | some dt => toTimestamp dt
  | none => (mtime fname).getD 0

/-! ### `cleanup_old_backups` -/

/-- `f.lower().endswith('.zip')` (ASCII case mapping). -/
def lowerEndsZip (f : PyStr) : Bool := (pys ".zip").isSuffixOf (f.map Char.toLower)

/-- The listing filter of `cleanup_old_backups`:
`f.lower().endswith('.zip') and (f.startswith(prefix) if prefix else True)`. -/
def isCandidate (pfx f : PyStr) : Bool :=
  lowerEndsZip f && (if !pfx.isEmpty then pfx.isPrefixOf f else true)

/-- Result of `os.listdir(output_dir)`: a listing, a `FileNotFoundError`
(which the function catches), or any other exception (which propagates). -/
inductive Listing where
  | ok (files : List PyStr)
  | fileNotFound
  | otherError

/-- The deletion attempts of one retention pass, in order, each with the
success of its `os.remove`. -/
structure CleanupRun where
  attempted : List (PyStr × Bool)
deriving DecidableEq, Repr

/-- Result of one `os.remove`; `error` models a raised exception. -/
abbrev RemoveOracle := PyStr → Except Unit Unit

/-- The per-file deletion loop at the bottom of `cleanup_old_backups`: a
failing `os.remove` is caught and reported, and the loop continues with the
remaining files. -/
def deleteLoop (rm : RemoveOracle) : List PyStr → List (PyStr × Bool)
  | [] => []
  | f :: fs =>
    match rm f with
    | .ok _ => (f, true) :: deleteLoop rm fs
    | .error _ => (f, false) :: deleteLoop rm fs

/-- The candidates in the order Python's stable sort with
`key=file_key, reverse=True` leaves them (newest first). -/
def sortedCandidates (fs : List PyStr) (mtime : PyStr → Option Int) (pfx : PyStr) :
    List PyStr :=
  (fs.filter (isCandidate pfx)).mergeSort fun a b =>
    decide (file_key pfx mtime b ≤ file_key pfx mtime a)

/-- `files[keep:]` after the sort: the list of files the pass deletes. -/
def retentionDeleteList (fs : List PyStr) (mtime : PyStr → Option Int)
    (pfx : PyStr) (keep : Int) : List PyStr :=
  (sortedCandidates fs mtime pfx).drop keep.toNat

/-- `cleanup_old_backups(output_dir, prefix, keep)`.  Returns the deletion
attempts in order, or `error` when an uncaught exception propagates (a
non-`FileNotFoundError` failure of `os.listdir`). -/
def cleanup_old_backups (listing : Listing) (mtime : PyStr → Option Int)
    (rm : RemoveOracle) (pfx : PyStr) (keep : Int) : Except Unit CleanupRun :=
  if keep ≤ 0 then .ok ⟨[]⟩
  else
    match listing with
    | .fileNotFound => .ok ⟨[]⟩
    | .otherError => .error ()
    | .ok fs => .ok ⟨deleteLoop rm (retentionDeleteList fs mtime pfx keep)⟩

/-! ### The remote tree walker `download_sftp_dir` -/

/-- A remote tree as the SFTP listings present it: an entry is a plain file
or a directory with its own listing (`sftp.listdir_attr` names plus
`S_ISDIR` flags). -/
inductive RTree where
  | file
  | dir (entries : List (PyStr × RTree))

/-- The local side effects of a walk: `os.makedirs(p, exist_ok=True)` and
`sftp.get(remote, local)`. -/
inductive Op where
  | mkdirOp (p : PyStr)
  | fetchOp (remote loc : PyStr)
deriving DecidableEq, Repr

/-- `s.rstrip('/')`. -/
def rstripSlash (s : PyStr) : PyStr := (s.reverse.dropWhile (fun c => c = '/')).reverse

/-- `posixpath.join(a, b)` for one extra component: an absolute `b`
replaces `a` entirely. -/
def osPathJoin (a b : PyStr) : PyStr :=
  if b.head? = some '/' then b
  else if a = [] then b
  else if a.getLast? = some '/' then a ++ b
  else a ++ '/' :: b

/-- The index just past the last `'/'` (`p.rfind('/') + 1`), 0 when there
is none. -/
def lastSlashEnd (p : PyStr) : Nat :=
  match p.reverse.findIdx? (fun c => c = '/') with
  | some j => p.length - j
  | none => 0

/-- `posixpath.dirname(p)`. -/
def osDirname (p : PyStr) : PyStr :=
  let head := p.take (lastSlashEnd p)
  if head ≠ [] && head.any (fun c => c ≠ '/') then rstripSlash head else head

mutual
/-- `download_sftp_dir(sftp, remote_dir, local_dir)` on a remote tree, as
the ordered local side effects and fetches it performs.  The `.file` case
is the body of `download_sftp_file` (make the parent directory, fetch). -/
def download_sftp_dir : RTree → PyStr → PyStr → List Op
  | .file, remotePath, localPath =>
    [.mkdirOp (osDirname localPath), .fetchOp remotePath localPath]
  | .dir entries, remoteDir, localDir =>
    .mkdirOp localDir :: walkEntries entries remoteDir localDir

/-- The entry loop of `download_sftp_dir`: skip `.` and `..`, otherwise
build `remote_dir.rstrip('/') + '/' + name` and
`os.path.join(local_dir, name)` and recurse or fetch. -/
def walkEntries : List (PyStr × RTree) → PyStr → PyStr → List Op
  | [], _, _ => []
  | (name, t) :: es, remoteDir, localDir =>
    (if name = pys "." ∨ name = pys ".." then []
     else download_sftp_dir t (rstripSlash remoteDir ++ '/' :: name)
            (osPathJoin localDir name))
      ++ walkEntries es remoteDir localDir
end

/-- The local path an operation touches. -/
def opLocal : Op → PyStr
  | .mkdirOp p => p
  | .fetchOp _ l => l

/-- `p` is the directory `root` itself or lies strictly under it. -/
def underDirB (root p : PyStr) : Bool := p == root || (root ++ ['/']).isPrefixOf p

mutual
/-- Every name in the tree is non-empty and free of path separators (the
sanitised situation under which the walker cannot escape its target). -/
def cleanTree : RTree → Bool
  | .file => true
  | .dir es => cleanEntries es

def cleanEntries : List (PyStr × RTree) → Bool
  | [] => true
  | (name, t) :: es => (!name.isEmpty && !name.contains '/') && cleanTree t && cleanEntries es
end

/-! ### Helper lemmas -/

theorem deleteLoop_map_fst (rm : RemoveOracle) (l : List PyStr) :
    (deleteLoop rm l).map Prod.fst = l := by
  induction l with
  | nil => rfl
  | cons f fs ih => cases h : rm f <;> simp [deleteLoop, h, ih]

theorem deleteLoop_mem_snd (rm : RemoveOracle) (l : List PyStr) :
    ∀ p ∈ deleteLoop rm l, p.2 = true ↔ rm p.1 = .ok () := by
  induction l with
  | nil => intro p hp; cases hp
  | cons f fs ih =>
    intro p hp
    cases h : rm f with
    | ok u =>
      simp only [deleteLoop, h, List.mem_cons] at hp
      rcases hp with hp | hp
      · cases u; subst hp; simp [h]
      · exact ih p hp
    | error e =>
      simp only [deleteLoop, h, List.mem_cons] at hp
      rcases hp with hp | hp
      · subst hp; simp [h]
      · exact ih p hp

theorem sortedCandidates_perm (fs : List PyStr) (mtime : PyStr → Option Int)
    (pfx : PyStr) : (sortedCandidates fs mtime pfx).Perm (fs.filter (isCandidate pfx)) :=
  List.mergeSort_perm _ _

theorem sortedCandidates_pairwise (fs : List PyStr) (mtime : PyStr → Option Int)
    (pfx : PyStr) :
    (sortedCandidates fs mtime pfx).Pairwise
      (fun a b => file_key pfx mtime b ≤ file_key pfx mtime a) := by
  have h := @List.sorted_mergeSort _
    (fun a b => decide (file_key pfx mtime b ≤ file_key pfx mtime a))
    (fun a b c hab hbc => by
      simp only [decide_eq_true_eq] at *
      exact le_trans hbc hab)
    (fun a b => by
      simpa using le_total (file_key pfx mtime b) (file_key pfx mtime a))
    (fs.filter (isCandidate pfx))
  exact h.imp (fun hb => of_decide_eq_true hb)

/-! ### Claim theorems: retention control flow -/

/-- C5: with `keep ≤ 0` the retention operation short-circuits: it performs
no deletions and returns normally, whatever the listing would have been. -/
theorem cleanup_keep_nonpos_noop (listing : Listing) (mtime : PyStr → Option Int)
    (rm : RemoveOracle) (pfx : PyStr) (keep : Int) (h : keep ≤ 0) :
    cleanup_old_backups listing mtime rm pfx keep = .ok ⟨[]⟩ := by
  simp [cleanup_old_backups, h]

/-- C5 witness: `keep = 0` deletes nothing even on a non-empty candidate
set. -/
theorem cleanup_keep_nonpos_noop_witness :
    isCandidate [] (pys "a.zip") = true ∧
    cleanup_old_backups (.ok [pys "a.zip"]) (fun _ => none) (fun _ => .ok ())
      [] 0 = .ok ⟨[]⟩ :=
  ⟨by decide, cleanup_keep_nonpos_noop _ _ _ _ _ (by decide)⟩

/-- C9: a missing directory (`os.listdir` raising `FileNotFoundError`) makes
the retention operation a no-op that returns normally, for every prefix and
keep-count. -/
theorem cleanup_missing_dir_noop (mtime : PyStr → Option Int) (rm : RemoveOracle)
    (pfx : PyStr) (keep : Int) :
    cleanup_old_backups .fileNotFound mtime rm pfx keep = .ok ⟨[]⟩ := by
  by_cases h : keep ≤ 0 <;> simp [cleanup_old_backups, h]

/-- C7: the deletion pass is best-effort per file: it returns normally, the
set of files whose deletion is attempted is the whole computed delete list
(independently of which removals fail), and a failed removal is recorded,
not re-raised. -/
theorem cleanup_best_effort (fs : List PyStr) (mtime : PyStr → Option Int)
    (pfx : PyStr) (keep : Int) (rm : RemoveOracle) (h : 0 < keep) :
    ∃ r, cleanup_old_backups (.ok fs) mtime rm pfx keep = .ok r ∧
      r.attempted.map Prod.fst = retentionDeleteList fs mtime pfx keep ∧
      ∀ p ∈ r.attempted, p.2 = true ↔ rm p.1 = .ok () := by
  have hk : ¬ keep ≤ 0 := by omega
  exact ⟨⟨deleteLoop rm (retentionDeleteList fs mtime pfx keep)⟩,
    by simp [cleanup_old_backups, hk],
    deleteLoop_map_fst rm _,
    deleteLoop_mem_snd rm _⟩

/-- C7 witness: a pass over two candidates where removing the newer-ranked
file fails still attempts both deletions. -/
theorem cleanup_best_effort_witness :
    (0 : Int) < 1 ∧
    ∃ r, cleanup_old_backups (.ok [pys "a.zip", pys "b.zip", pys "c.zip"])
        (fun _ => none) (fun f => if f = pys "b.zip" then .error () else .ok ())
        [] 1 = .ok r ∧
      r.attempted.map Prod.fst =
        retentionDeleteList [pys "a.zip", pys "b.zip", pys "c.zip"] (fun _ => none) [] 1 ∧
      ∀ p ∈ r.attempted, p.2 = true ↔
        (if p.1 = pys "b.zip" then Except.error () else Except.ok ()) = .ok () :=
  ⟨by decide, cleanup_best_effort _ _ _ _ _ (by decide)⟩

/-- C1: with `0 < keep < candidateCount`, the retention pass attempts
deletion of exactly `candidateCount - keep` files, and the kept candidates
are exactly `keep` many files which, together with the deleted ones, make up
the candidate set, every kept file having a sort key at least as large as
every deleted one (sorted descending, newest first). -/
theorem retention_keeps_largest (fs : List PyStr) (mtime : PyStr → Option Int)
    (rm : RemoveOracle) (pfx : PyStr) (keep : Int) (h0 : 0 < keep)
    (hlt : keep.toNat < (fs.filter (isCandidate pfx)).length) :
    ∃ r, cleanup_old_backups (.ok fs) mtime rm pfx keep = .ok r ∧
      r.attempted.length = (fs.filter (isCandidate pfx)).length - keep.toNat ∧
      ∃ kept, kept.length = keep.toNat ∧
        (kept ++ r.attempted.map Prod.fst).Perm (fs.filter (isCandidate pfx)) ∧
        ∀ a ∈ kept, ∀ b ∈ r.attempted.map Prod.fst,
          file_key pfx mtime b ≤ file_key pfx mtime a := by
  have hk : ¬ keep ≤ 0 := by omega
  have hlen : (sortedCandidates fs mtime pfx).length
      = (fs.filter (isCandidate pfx)).length :=
    (sortedCandidates_perm fs mtime pfx).length_eq
  have hmap : (deleteLoop rm (retentionDeleteList fs mtime pfx keep)).map Prod.fst
      = retentionDeleteList fs mtime pfx keep := deleteLoop_map_fst rm _
  refine ⟨⟨deleteLoop rm (retentionDeleteList fs mtime pfx keep)⟩,
    by simp [cleanup_old_backups, hk], ?_, ?_⟩
  · have := congrArg List.length hmap
    simp only [List.length_map] at this
    rw [this, retentionDeleteList, List.length_drop, hlen]
  · refine ⟨(sortedCandidates fs mtime pfx).take keep.toNat, ?_, ?_, ?_⟩
    · rw [List.length_take, hlen]; omega
    · rw [hmap, retentionDeleteList, List.take_append_drop]
      exact sortedCandidates_perm fs mtime pfx
    · intro a ha b hb
      rw [hmap] at hb
      have hp := sortedCandidates_pairwise fs mtime pfx
      rw [← List.take_append_drop keep.toNat (sortedCandidates fs mtime pfx),
        List.pairwise_append] at hp
      exact hp.2.2 a ha b hb

/-- C1 witness: three candidates, `keep = 1`. -/
theorem retention_keeps_largest_witness :
    (0 : Int) < 1 ∧
    (1 : Int).toNat <
      (([pys "a_2024-01-01T00-00-00.000000Z.zip", pys "a_2024-06-01T00-00-00.000000Z.zip",
         pys "a_garbage.zip"]).filter (isCandidate (pys "a"))).length ∧
    ∃ r, cleanup_old_backups
        (.ok [pys "a_2024-01-01T00-00-00.000000Z.zip", pys "a_2024-06-01T00-00-00.000000Z.zip",
              pys "a_garbage.zip"])
        (fun _ => some 0) (fun _ => .ok ()) (pys "a") 1 = .ok r ∧
      r.attempted.length =
        (([pys "a_2024-01-01T00-00-00.000000Z.zip", pys "a_2024-06-01T00-00-00.000000Z.zip",
           pys "a_garbage.zip"]).filter (isCandidate (pys "a"))).length - (1 : Int).toNat ∧
      ∃ kept, kept.length = (1 : Int).toNat ∧
        (kept ++ r.attempted.map Prod.fst).Perm
          (([pys "a_2024-01-01T00-00-00.000000Z.zip", pys "a_2024-06-01T00-00-00.000000Z.zip",
             pys "a_garbage.zip"]).filter (isCandidate (pys "a"))) ∧
        ∀ a ∈ kept, ∀ b ∈ r.attempted.map Prod.fst,
          file_key (pys "a") (fun _ => some 0) b ≤ file_key (pys "a") (fun _ => some 0) a :=
  ⟨by decide, by decide, retention_keeps_largest _ _ _ _ _ (by decide) (by decide)⟩

/-! ### Claim theorems: the walker skips `.` and `..` -/

theorem walkEntries_filter_dots (entries : List (PyStr × RTree)) (rd ld : PyStr) :
    walkEntries (entries.filter fun e => !(e.1 == pys "." || e.1 == pys "..")) rd ld
      = walkEntries entries rd ld := by
  induction entries with
  | nil => rfl
  | cons e es ih =>
    obtain ⟨name, t⟩ := e
    by_cases hd : name = pys "." ∨ name = pys ".."
    · have hb : (!(name == pys "." || name == pys "..")) = false := by
        rcases hd with h | h <;> simp [h]
      rw [List.filter_cons_of_neg (by simp [hb]), ih, walkEntries, if_pos hd,
        List.nil_append]
    · have hb : (!(name == pys "." || name == pys "..")) = true := by
        simp only [Bool.not_eq_true', Bool.or_eq_false_iff, beq_eq_false_iff_ne]
        exact ⟨fun h => hd (Or.inl h), fun h => hd (Or.inr h)⟩
      rw [List.filter_cons_of_pos (by simp [hb]), walkEntries, walkEntries,
        if_neg hd, ih]

/-- C8: the walker produces exactly the same operations whether or not the
listing contains entries named `.` or `..`: such entries are skipped before
any local path is constructed, so no local file or directory is ever
created for them. -/
theorem walker_skips_dots (entries : List (PyStr × RTree)) (rd ld : PyStr) :
    download_sftp_dir (.dir entries) rd ld =
      download_sftp_dir
        (.dir (entries.filter fun e => !(e.1 == pys "." || e.1 == pys ".."))) rd ld := by
  rw [download_sftp_dir, download_sftp_dir, walkEntries_filter_dots]

/-! ### Claim theorems: the `file_key` fallback (C3) -/

/-- C3 (amended): when the timestamp parse fails, the sort key is the
file's last-modified instant; when that too is unavailable the key is the
literal constant 0 (the Unix epoch) — which ranks below every post-epoch
key, but not below a pre-epoch parsed or mtime-derived key. -/
theorem file_key_fallback (pfx : PyStr) (mtime : PyStr → Option Int) (fname : PyStr)
    (h : parseTimestamp (strippedName pfx fname) = none) :
    (∀ m, mtime fname = some m → file_key pfx mtime fname = m) ∧
    (mtime fname = none → file_key pfx mtime fname = 0) := by
  constructor
  · intro m hm; simp [file_key, h, hm]
  · intro hm; simp [file_key, h, hm]

/-- C3 witness: an unparsable name falls back to the mtime, and to 0 when
no mtime is available. -/
theorem file_key_fallback_witness :
    parseTimestamp (strippedName [] (pys "garbage.zip")) = none ∧
    file_key [] (fun _ => some 5) (pys "garbage.zip") = 5 ∧
    file_key [] (fun _ => none) (pys "garbage.zip") = 0 :=
  ⟨by decide,
   (file_key_fallback [] (fun _ => some 5) (pys "garbage.zip") (by decide)).1 5 rfl,
   (file_key_fallback [] (fun _ => none) (pys "garbage.zip") (by decide)).2 rfl⟩

/-- C3 counterexample: the no-mtime fallback key 0 is not the oldest
possible value, and such a file is not ranked below every file with a
parsed key: a name embedding a pre-1970 instant parses to a strictly
smaller key. -/
theorem file_key_fallback_counterexample :
    parseTimestamp (strippedName [] (pys "junk.zip")) = none ∧
    file_key [] (fun _ => none) (pys "junk.zip") = 0 ∧
    file_key [] (fun _ => none) (pys "1969-01-01T00-00-00.000000Z.zip") < 0 :=
  ⟨by decide, by decide, by decide⟩

/-! ### Structure of successful parses -/

theorem readDigitsUpTo_append (k : Nat) (s : PyStr) :
    (readDigitsUpTo k s).1 ++ (readDigitsUpTo k s).2 = s := by
  induction k generalizing s with
  | zero => rfl
  | succ k ih =>
    cases s with
    | nil => rfl
    | cons c r =>
      by_cases h : isDig c = true
      · simp [readDigitsUpTo, h, ih]
      · simp [readDigitsUpTo, h]

theorem readDigitsUpTo_digits (k : Nat) (s : PyStr) :
    ∀ c ∈ (readDigitsUpTo k s).1, isDig c = true := by
  induction k generalizing s with
  | zero => intro c hc; cases hc
  | succ k ih =>
    cases s with
    | nil => intro c hc; cases hc
    | cons a r =>
      by_cases h : isDig a = true
      · intro c hc
        simp only [readDigitsUpTo, h, if_true, List.mem_cons] at hc
        rcases hc with rfl | hc
        · exact h
        · exact ih r c hc
      · intro c hc
        simp [readDigitsUpTo, h] at hc

theorem readFixed4_suffix (s : PyStr) (p : Nat × PyStr) (h : readFixed4 s = some p) :
    p.2 <:+ s := by
  unfold readFixed4 at h
  split at h
  · cases h; exact ⟨(readDigitsUpTo 4 s).1, readDigitsUpTo_append 4 s⟩
  · cases h

theorem read1to2_suffix (s : PyStr) (p : Nat × PyStr) (h : read1to2 s = some p) :
    p.2 <:+ s := by
  unfold read1to2 at h
  split at h
  · cases h
  · cases h; exact ⟨(readDigitsUpTo 2 s).1, readDigitsUpTo_append 2 s⟩

theorem read1to6_suffix (s : PyStr) (p : Nat × PyStr) (h : read1to6 s = some p) :
    p.2 <:+ s := by
  unfold read1to6 at h
  split at h
  · cases h
  · cases h; exact ⟨(readDigitsUpTo 6 s).1, readDigitsUpTo_append 6 s⟩

theorem lit_eq (c : Char) (s r : PyStr) (h : lit c s = some r) :
    ∃ a, s = a :: r ∧ a.toLower = c.toLower := by
  cases s with
  | nil => cases h
  | cons a r' =>
    by_cases hc : a.toLower = c.toLower
    · simp only [lit, if_pos hc, Option.some.injEq] at h
      exact ⟨a, by rw [h], hc⟩
    · simp only [lit, if_neg hc] at h
      cases h

theorem lit_suffix (c : Char) (s r : PyStr) (h : lit c s = some r) : r <:+ s := by
  obtain ⟨a, rfl, -⟩ := lit_eq c s r h
  exact ⟨[a], rfl⟩

/-- A string accepted by the timestamp parse ends in `Z` or `z`. -/
theorem parse_last (s : PyStr) (dt : DT) (h : parseTimestamp s = some dt) :
    ∃ t c, s = t ++ [c] ∧ c.toLower = 'z' := by
  unfold parseTimestamp at h
  obtain ⟨p1, h1, h⟩ := Option.bind_eq_some.mp h
  obtain ⟨s2, h2, h⟩ := Option.bind_eq_some.mp h
  obtain ⟨p2, h3, h⟩ := Option.bind_eq_some.mp h
  obtain ⟨s3, h4, h⟩ := Option.bind_eq_some.mp h
  obtain ⟨p3, h5, h⟩ := Option.bind_eq_some.mp h
  obtain ⟨s4, h6, h⟩ := Option.bind_eq_some.mp h
  obtain ⟨p4, h7, h⟩ := Option.bind_eq_some.mp h
  obtain ⟨s5, h8, h⟩ := Option.bind_eq_some.mp h
  obtain ⟨p5, h9, h⟩ := Option.bind_eq_some.mp h
  obtain ⟨s6, h10, h⟩ := Option.bind_eq_some.mp h
  obtain ⟨p6, h11, h⟩ := Option.bind_eq_some.mp h
  obtain ⟨s7, h12, h⟩ := Option.bind_eq_some.mp h
  obtain ⟨p7, h13, h⟩ := Option.bind_eq_some.mp h
  obtain ⟨s8, h14, hfin⟩ := Option.bind_eq_some.mp h
  have hs8 : s8 = [] := by
    by_contra hne
    rw [if_neg hne] at hfin
    exact Option.noConfusion hfin
  subst hs8
  obtain ⟨a, ha, hal⟩ := lit_eq _ _ _ h14
  have k1 : p1.2 <:+ s := readFixed4_suffix _ _ h1
  have k2 : s2 <:+ s := (lit_suffix _ _ _ h2).trans k1
  have k3 : p2.2 <:+ s := (read1to2_suffix _ _ h3).trans k2
  have k4 : s3 <:+ s := (lit_suffix _ _ _ h4).trans k3
  have k5 : p3.2 <:+ s := (read1to2_suffix _ _ h5).trans k4
  have k6 : s4 <:+ s := (lit_suffix _ _ _ h6).trans k5
  have k7 : p4.2 <:+ s := (read1to2_suffix _ _ h7).trans k6
  have k8 : s5 <:+ s := (lit_suffix _ _ _ h8).trans k7
  have k9 : p5.2 <:+ s := (read1to2_suffix _ _ h9).trans k8
  have k10 : s6 <:+ s := (lit_suffix _ _ _ h10).trans k9
  have k11 : p6.2 <:+ s := (read1to2_suffix _ _ h11).trans k10
  have k12 : s7 <:+ s := (lit_suffix _ _ _ h12).trans k11
  have k13 : p7.2 <:+ s := (read1to6_suffix _ _ h13).trans k12
  rw [ha] at k13
  obtain ⟨t, ht⟩ := k13
  exact ⟨t, a, ht.symm, hal⟩

/-- A string accepted by the timestamp parse starts with a digit. -/
theorem parse_head (s : PyStr) (dt : DT) (h : parseTimestamp s = some dt) :
    ∃ c r, s = c :: r ∧ isDig c = true := by
  unfold parseTimestamp at h
  obtain ⟨p1, h1, -⟩ := Option.bind_eq_some.mp h
  unfold readFixed4 at h1
  split at h1
  · have happ := readDigitsUpTo_append 4 s
    have hdig := readDigitsUpTo_digits 4 s
    rename_i hlen
    cases hds : (readDigitsUpTo 4 s).1 with
    | nil => rw [hds] at hlen; cases hlen
    | cons a ds' =>
      rw [hds] at happ hdig
      exact ⟨a, ds' ++ (readDigitsUpTo 4 s).2,
        by rw [← List.cons_append]; exact happ.symm,
        hdig a (List.mem_cons_self a ds')⟩
  · cases h1

/-! ### Claim theorems: case-mismatched extensions (C10) -/

/-- Whether the lowercase string `".zip"` occurs anywhere in `s`. -/
def containsZipSub : PyStr → Bool
  | [] => false
  | c :: cs => (pys ".zip").isPrefixOf (c :: cs) || containsZipSub cs

theorem rsplitZipPre_none_of_not_contains (s : PyStr)
    (h : containsZipSub s = false) : rsplitZipPre s = none := by
  induction s with
  | nil => rfl
  | cons c cs ih =>
    simp only [containsZipSub, Bool.or_eq_false_iff] at h
    simp [rsplitZipPre, ih h.2, h.1]

theorem containsZipSub_drop (s : PyStr) (k : Nat)
    (h : containsZipSub s = false) : containsZipSub (s.drop k) = false := by
  induction k generalizing s with
  | zero => simpa using h
  | succ k ih =>
    cases s with
    | nil => rfl
    | cons c cs =>
      simp only [containsZipSub, Bool.or_eq_false_iff] at h
      simpa using ih cs h.2

theorem stripPfx_eq_drop (pfx fname : PyStr) :
    ∃ k, stripPfx pfx fname = fname.drop k := by
  unfold stripPfx
  split
  · exact ⟨pfx.length + 1, rfl⟩
  · split
    · exact ⟨pfx.length, rfl⟩
    · exact ⟨0, (List.drop_zero fname).symm⟩

theorem lowerEndsZip_last (f : PyStr) (h : lowerEndsZip f = true) :
    ∃ c, f.getLast? = some c ∧ c.toLower = 'p' := by
  unfold lowerEndsZip at h
  rw [List.isSuffixOf_iff_suffix] at h
  obtain ⟨t, ht⟩ := h
  have hl : (f.map Char.toLower).getLast? = some 'p' := by
    rw [← ht]
    have : t ++ pys ".zip" = (t ++ ['.', 'z', 'i']) ++ ['p'] := by
      simp [pys]
    rw [this, List.getLast?_concat]
  rw [List.getLast?_map] at hl
  cases hg : f.getLast? with
  | none => rw [hg] at hl; cases hl
  | some c =>
    rw [hg] at hl
    simp only [Option.map_some'] at hl
    exact ⟨c, rfl, Option.some.inj hl⟩

theorem drop_getLast? (l : List Char) (k : Nat) (h : l.drop k ≠ []) :
    (l.drop k).getLast? = l.getLast? := by
  conv_rhs => rw [← List.take_append_drop k l]
  rw [List.getLast?_append_of_ne_nil _ h]

/-- C10 (amended): a retention candidate whose name contains no lowercase
`".zip"` occurrence (in particular, one whose only extension is upper- or
mixed-case like `.ZIP`) is selected by the lowercasing extension check but
never stripped by the case-sensitive `rsplit('.zip', 1)`, so its timestamp
parse fails and its sort key is always the modification-time fallback.
(When a lowercase `".zip"` occurs earlier in the name, the rsplit cuts
there instead and the parse may succeed — see the counterexample.) -/
theorem mixed_case_ext_falls_back (pfx : PyStr) (mtime : PyStr → Option Int)
    (fname : PyStr) (hcand : isCandidate pfx fname = true)
    (hnz : containsZipSub fname = false) :
    file_key pfx mtime fname = (mtime fname).getD 0 := by
  have hlz : lowerEndsZip fname = true := by
    simp only [isCandidate, Bool.and_eq_true] at hcand
    exact hcand.1
  obtain ⟨k, hk⟩ := stripPfx_eq_drop pfx fname
  have hnz' : containsZipSub (stripPfx pfx fname) = false := by
    rw [hk]; exact containsZipSub_drop _ _ hnz
  have hpre : rsplitZipPre (stripPfx pfx fname) = none :=
    rsplitZipPre_none_of_not_contains _ hnz'
  have hstr : strippedName pfx fname = stripPfx pfx fname := by
    unfold strippedName rsplitZip
    rw [hpre]
    rfl
  have hparse : parseTimestamp (strippedName pfx fname) = none := by
    rw [hstr]
    by_contra hne
    obtain ⟨dt, hdt⟩ := Option.ne_none_iff_exists'.mp hne
    obtain ⟨t, c, hc, hcz⟩ := parse_last _ _ hdt
    obtain ⟨c', hlast, hlp⟩ := lowerEndsZip_last fname hlz
    have hne' : fname.drop k ≠ [] := by
      rw [← hk, hc]; simp
    have hgl : (fname.drop k).getLast? = fname.getLast? := drop_getLast? _ _ hne'
    rw [← hk, hc, List.getLast?_concat, hlast] at hgl
    have : c = c' := Option.some.inj hgl
    rw [this, hlp] at hcz
    cases hcz
  simp [file_key, hparse]

/-- C10 witness: a candidate named with an upper-case `.ZIP` extension and
no interior lowercase `.zip` takes the mtime fallback key. -/
theorem mixed_case_ext_falls_back_witness :
    isCandidate [] (pys "2024-01-01T00-00-00.000000Z.ZIP") = true ∧
    containsZipSub (pys "2024-01-01T00-00-00.000000Z.ZIP") = false ∧
    file_key [] (fun _ => some 7) (pys "2024-01-01T00-00-00.000000Z.ZIP")
      = ((fun _ => some (7 : Int)) (pys "2024-01-01T00-00-00.000000Z.ZIP")).getD 0 :=
  ⟨by decide, by decide,
   mixed_case_ext_falls_back [] (fun _ => some 7) (pys "2024-01-01T00-00-00.000000Z.ZIP")
     (by decide) (by decide)⟩

/-- C10 counterexample: for a candidate with a mixed-case extension the
parse does not always fail — `rsplit('.zip', 1)` cuts at an interior
lowercase `.zip`, the remainder parses, and the sort key is the embedded
timestamp, not the mtime fallback. -/
theorem mixed_case_ext_counterexample :
    isCandidate [] (pys "2024-01-01T00-00-00.000000Z.zipA.ZIP") = true ∧
    file_key [] (fun _ => some 42) (pys "2024-01-01T00-00-00.000000Z.zipA.ZIP")
      = toTimestamp ⟨2024, 1, 1, 0, 0, 0, 0⟩ ∧
    toTimestamp ⟨2024, 1, 1, 0, 0, 0, 0⟩ ≠ 42 :=
  ⟨by decide, by decide, by decide⟩

/-! ### Printing and re-parsing the timestamp format -/

theorem isDig_digitChar (n : Nat) : isDig (digitChar n) = true := by
  rcases n with _|_|_|_|_|_|_|_|_|n <;> rfl

theorem digitVal_digitChar (n : Nat) (h : n ≤ 9) : digitVal (digitChar n) = n := by
  interval_cases n <;> decide

theorem pad_length (w : Nat) : ∀ n, (pad w n).length = w := by
  induction w with
  | zero => intro n; rfl
  | succ w ih => intro n; simp [pad, ih]

theorem pad_digits (w : Nat) : ∀ n, ∀ c ∈ pad w n, isDig c = true := by
  induction w with
  | zero => intro n c hc; cases hc
  | succ w ih =>
    intro n c hc
    simp only [pad, List.mem_append, List.mem_singleton] at hc
    rcases hc with hc | hc
    · exact ih _ c hc
    · subst hc
      exact isDig_digitChar _

theorem digitsVal_append (xs : List Char) (acc : Nat) (ys : List Char) :
    digitsVal acc (xs ++ ys) = digitsVal (digitsVal acc xs) ys := by
  simp [digitsVal, List.foldl_append]

theorem digitsVal_pad (w : Nat) : ∀ n acc, n < 10 ^ w →
    digitsVal acc (pad w n) = acc * 10 ^ w + n := by
  induction w with
  | zero =>
    intro n acc h
    simp only [pad, digitsVal, List.foldl_nil, pow_zero] at *
    omega
  | succ w ih =>
    intro n acc h
    have hdiv : n / 10 < 10 ^ w := by
      rw [Nat.div_lt_iff_lt_mul (by omega)]
      calc n < 10 ^ (w + 1) := h
        _ = 10 ^ w * 10 := by rw [pow_succ]
    rw [pad, digitsVal_append, ih (n / 10) acc hdiv]
    simp only [digitsVal, List.foldl_cons, List.foldl_nil,
      digitVal_digitChar (n % 10) (by omega)]
    rw [pow_succ, ← Nat.mul_assoc]
    omega

theorem readDigitsUpTo_exact (ds : List Char) : ∀ rest, (∀ c ∈ ds, isDig c = true) →
    readDigitsUpTo ds.length (ds ++ rest) = (ds, rest) := by
  induction ds with
  | nil => intro rest _; rfl
  | cons c ds' ih =>
    intro rest hd
    have hc : isDig c = true := hd c (List.mem_cons_self c ds')
    show readDigitsUpTo (ds'.length + 1) (c :: (ds' ++ rest)) = _
    rw [readDigitsUpTo, if_pos hc, ih rest (fun a ha => hd a (List.mem_cons_of_mem c ha))]

theorem readDigitsUpTo_stop (ds : List Char) : ∀ k rest, ds.length ≤ k →
    (∀ c ∈ ds, isDig c = true) →
    (∀ c, rest.head? = some c → isDig c = false) →
    readDigitsUpTo k (ds ++ rest) = (ds, rest) := by
  induction ds with
  | nil =>
    intro k rest _ _ hrest
    cases k with
    | zero => rfl
    | succ k =>
      cases rest with
      | nil => rfl
      | cons c r =>
        show readDigitsUpTo (k + 1) (c :: r) = ([], c :: r)
        rw [readDigitsUpTo, if_neg (by rw [hrest c rfl]; exact Bool.false_ne_true)]
  | cons c ds' ih =>
    intro k rest hlen hd hrest
    cases k with
    | zero => simp at hlen
    | succ k =>
      have hc : isDig c = true := hd c (List.mem_cons_self c ds')
      show readDigitsUpTo (k + 1) (c :: (ds' ++ rest)) = _
      rw [readDigitsUpTo, if_pos hc,
        ih k rest (by simpa using hlen) (fun a ha => hd a (List.mem_cons_of_mem c ha)) hrest]

theorem readFixed4_pad (y : Nat) (hy : y < 10000) (rest : PyStr) :
    readFixed4 (pad 4 y ++ rest) = some (y, rest) := by
  have he : readDigitsUpTo 4 (pad 4 y ++ rest) = (pad 4 y, rest) := by
    have := readDigitsUpTo_exact (pad 4 y) rest (pad_digits 4 y)
    rwa [pad_length] at this
  simp [readFixed4, he, pad_length, digitsVal_pad 4 y 0 hy]

theorem pad_ne_nil (w n : Nat) : pad (w + 1) n ≠ [] := by
  simp [pad]

theorem read1to2_pad (n : Nat) (hn : n < 100) (c : Char) (hc : isDig c = false)
    (rest : PyStr) : read1to2 (pad 2 n ++ c :: rest) = some (n, c :: rest) := by
  have he : readDigitsUpTo 2 (pad 2 n ++ c :: rest) = (pad 2 n, c :: rest) := by
    refine readDigitsUpTo_stop (pad 2 n) 2 (c :: rest) (by rw [pad_length]) (pad_digits 2 n) ?_
    intro c' hc'
    cases hc'
    exact hc
  have hne : (pad 2 n).isEmpty = false := by
    rw [List.isEmpty_eq_false]
    exact pad_ne_nil 1 n
  simp [read1to2, he, hne, digitsVal_pad 2 n 0 hn]

theorem read1to6_pad (n : Nat) (hn : n < 1000000) (c : Char) (hc : isDig c = false)
    (rest : PyStr) : read1to6 (pad 6 n ++ c :: rest) = some (n, c :: rest) := by
  have he : readDigitsUpTo 6 (pad 6 n ++ c :: rest) = (pad 6 n, c :: rest) := by
    refine readDigitsUpTo_stop (pad 6 n) 6 (c :: rest) (by rw [pad_length]) (pad_digits 6 n) ?_
    intro c' hc'
    cases hc'
    exact hc
  have hne : (pad 6 n).isEmpty = false := by
    rw [List.isEmpty_eq_false]
    exact pad_ne_nil 5 n
  simp [read1to6, he, hne, pad_length, digitsVal_pad 6 n 0 hn]

theorem lit_cons (c a : Char) (h : a.toLower = c.toLower) (r : PyStr) :
    lit c (a :: r) = some r := by
  simp [lit, h]

theorem daysInMonth_le (y m : Nat) : daysInMonth y m ≤ 31 := by
  unfold daysInMonth
  split
  · split <;> omega
  · split <;> omega

/-- `strptime` inverts `strftime` on every constructible datetime: the
formatted name parses back to exactly the same instant, microseconds
included. -/
theorem parse_format (d : DT) (h : validDT d = true) :
    parseTimestamp (formatTimestamp d) = some d := by
  simp only [validDT, Bool.and_eq_true, decide_eq_true_eq] at h
  obtain ⟨⟨⟨⟨⟨⟨⟨⟨⟨h1, h2⟩, h3⟩, h4⟩, h5⟩, h6⟩, h7⟩, h8⟩, h9⟩, h10⟩ := h
  have hy : d.year < 10000 := by omega
  have hmo : d.month < 100 := by omega
  have hda : d.day < 100 := by
    have := daysInMonth_le d.year d.month
    omega
  have hh : d.hour < 100 := by omega
  have hmi : d.minute < 100 := by omega
  have hs : d.second < 100 := by omega
  have hus : d.usec < 1000000 := by omega
  have heta : (⟨d.year, d.month, d.day, d.hour, d.minute, d.second, d.usec⟩ : DT) = d := rfl
  simp only [parseTimestamp, formatTimestamp, List.cons_append, List.append_assoc,
    readFixed4_pad d.year hy,
    lit_cons '-' '-' rfl, lit_cons 'T' 'T' rfl, lit_cons '.' '.' rfl, lit_cons 'Z' 'Z' rfl,
    read1to2_pad d.month hmo '-' (by decide),
    read1to2_pad d.day hda 'T' (by decide),
    read1to2_pad d.hour hh '-' (by decide),
    read1to2_pad d.minute hmi '-' (by decide),
    read1to2_pad d.second hs '.' (by decide),
    read1to6_pad d.usec hus 'Z' (by decide),
    Option.some_bind]
  have hv : validDT d = true := by
    simp only [validDT, Bool.and_eq_true, decide_eq_true_eq]
    exact ⟨⟨⟨⟨⟨⟨⟨⟨⟨h1, h2⟩, h3⟩, h4⟩, h5⟩, h6⟩, h7⟩, h8⟩, h9⟩, h10⟩
  rw [if_pos trivial, heta, hv, if_pos rfl]

/-! ### Prefix stripping and `.zip` splitting on well-formed names -/

theorem rsplitZipPre_append_zip (ts : PyStr) :
    rsplitZipPre (ts ++ pys ".zip") = some ts := by
  induction ts with
  | nil => decide
  | cons c ts' ih =>
    simp only [List.cons_append, rsplitZipPre, List.append_eq, ih]

theorem rsplitZip_append_zip (ts : PyStr) : rsplitZip (ts ++ pys ".zip") = ts := by
  simp [rsplitZip, rsplitZipPre_append_zip]

theorem stripPfx_nil (fname : PyStr) : stripPfx [] fname = fname := by
  simp [stripPfx]

theorem stripPfx_underscore (pfx rest : PyStr) (h : pfx ≠ []) :
    stripPfx pfx (pfx ++ '_' :: rest) = rest := by
  have h2 : (!pfx.isEmpty) = true := by simp [h]
  have h1 : (pfx ++ ['_']).isPrefixOf (pfx ++ '_' :: rest) = true := by
    simp only [ List.isPrefixOf_iff_prefix]
    exact ⟨rest, by simp⟩
  unfold stripPfx
  rw [if_pos (by rw [h2, h1]; rfl)]
  rw [show pfx ++ '_' :: rest = (pfx ++ ['_']) ++ rest by simp,
    show pfx.length + 1 = (pfx ++ ['_']).length by simp,
    List.drop_left]

theorem stripPfx_plain (pfx rest : PyStr) (h : pfx ≠ [])
    (hr : ∀ c r', rest = c :: r' → c ≠ '_') :
    stripPfx pfx (pfx ++ rest) = rest := by
  have h2 : (!pfx.isEmpty) = true := by simp [h]
  have h1 : (pfx ++ ['_']).isPrefixOf (pfx ++ rest) = false := by
    rw [Bool.eq_false_iff]
    intro hc
    rw [ List.isPrefixOf_iff_prefix] at hc
    have hu : ['_'] <+: rest := by simpa using hc
    obtain ⟨t, ht⟩ := hu
    cases rest with
    | nil => cases ht
    | cons c r' =>
      have hc' : c = '_' := by
        have := (List.cons.injEq _ _ _ _).mp ht
        exact this.1.symm
      exact hr c r' rfl hc'
  have h3 : pfx.isPrefixOf (pfx ++ rest) = true := by
    simp only [ List.isPrefixOf_iff_prefix]
    exact ⟨rest, rfl⟩
  unfold stripPfx
  rw [if_neg (by rw [h2, h1]; exact Bool.false_ne_true), if_pos (by rw [h2, h3]; rfl),
    List.drop_left]

/-! ### Claim theorems: timestamp round-trip (C4) and key computation (C6) -/

/-- C4: for every instant the archiver can embed, the file name produced by
`create_zip_from_folder`'s naming scheme is parsed back by `file_key` to an
instant equal, microseconds included, to the embedded one — for any prefix
and whatever the file's mtime is. -/
theorem zip_roundtrip (zp : PyStr) (mtime : PyStr → Option Int) (d : DT)
    (h : validDT d = true) :
    file_key zp mtime (zipName zp d) = toTimestamp d := by
  have hstrip : stripPfx zp (zipName zp d) = formatTimestamp d ++ pys ".zip" := by
    by_cases hz : zp = []
    · subst hz
      rw [show zipName [] d = formatTimestamp d ++ pys ".zip" by simp [zipName]]
      exact stripPfx_nil _
    · rw [show zipName zp d = zp ++ '_' :: (formatTimestamp d ++ pys ".zip") by
        simp [zipName, hz]]
      exact stripPfx_underscore _ _ hz
  unfold file_key strippedName
  rw [hstrip, rsplitZip_append_zip, parse_format d h]

/-- C4 witness: a concrete embedded instant with a non-empty prefix. -/
theorem zip_roundtrip_witness :
    validDT ⟨2024, 6, 1, 12, 30, 15, 123456⟩ = true ∧
    file_key (pys "a") (fun _ => none)
        (zipName (pys "a") ⟨2024, 6, 1, 12, 30, 15, 123456⟩)
      = toTimestamp ⟨2024, 6, 1, 12, 30, 15, 123456⟩ :=
  ⟨by decide, zip_roundtrip (pys "a") (fun _ => none) _ (by decide)⟩

/-- C6: `file_key` first strips `prefix + "_"` when the name starts with
it, else the bare prefix when the name starts with that (a no-op when the
prefix is empty); it then strips the trailing `.zip`, and when the
remainder parses against the exact timestamp format the sort key is the
parsed instant. -/
theorem file_key_strip_parse (pfx rest : PyStr) (dt : DT)
    (mtime : PyStr → Option Int) (hp : parseTimestamp rest = some dt) :
    file_key [] mtime (rest ++ pys ".zip") = toTimestamp dt ∧
    (pfx ≠ [] →
      file_key pfx mtime (pfx ++ '_' :: (rest ++ pys ".zip")) = toTimestamp dt ∧
      file_key pfx mtime (pfx ++ (rest ++ pys ".zip")) = toTimestamp dt) := by
  refine ⟨?_, fun hz => ⟨?_, ?_⟩⟩
  · unfold file_key strippedName
    rw [stripPfx_nil, rsplitZip_append_zip, hp]
  · unfold file_key strippedName
    rw [stripPfx_underscore _ _ hz, rsplitZip_append_zip, hp]
  · obtain ⟨c, r, hcr, hdig⟩ := parse_head rest dt hp
    unfold file_key strippedName
    rw [stripPfx_plain pfx _ hz ?_, rsplitZip_append_zip, hp]
    intro c' r' he hc'
    rw [hcr] at he
    have hcc : c' = c := ((List.cons.injEq _ _ _ _).mp he.symm).1
    rw [hc'] at hcc
    rw [← hcc] at hdig
    cases hdig
  
/-- C6 witness: a parsable remainder under a non-empty prefix, in all three
stripping situations. -/
theorem file_key_strip_parse_witness :
    parseTimestamp (pys "2024-06-01T00-00-00.000000Z")
      = some ⟨2024, 6, 1, 0, 0, 0, 0⟩ ∧
    (file_key [] (fun _ => none) (pys "2024-06-01T00-00-00.000000Z" ++ pys ".zip")
        = toTimestamp ⟨2024, 6, 1, 0, 0, 0, 0⟩ ∧
      (pys "a" ≠ [] →
        file_key (pys "a") (fun _ => none)
            (pys "a" ++ '_' :: (pys "2024-06-01T00-00-00.000000Z" ++ pys ".zip"))
          = toTimestamp ⟨2024, 6, 1, 0, 0, 0, 0⟩ ∧
        file_key (pys "a") (fun _ => none)
            (pys "a" ++ (pys "2024-06-01T00-00-00.000000Z" ++ pys ".zip"))
          = toTimestamp ⟨2024, 6, 1, 0, 0, 0, 0⟩)) :=
  ⟨by decide,
   file_key_strip_parse (pys "a") (pys "2024-06-01T00-00-00.000000Z")
     ⟨2024, 6, 1, 0, 0, 0, 0⟩ (fun _ => none) (by decide)⟩

/-! ### Claim theorems: walker paths and the target directory (C2) -/

theorem dropWhile_slash_reverse (s : PyStr) (h : s.getLast? ≠ some '/') :
    s.reverse.dropWhile (fun c => c = '/') = s.reverse := by
  cases hs : s.reverse with
  | nil => rfl
  | cons c r =>
    have hcs : s.getLast? = some c := by rw [← List.head?_reverse, hs]; rfl
    have hc : ¬ (c = '/') := fun hc' => h (hc' ▸ hcs)
    rw [List.dropWhile_cons_of_neg (by simp [hc])]

theorem rstripSlash_no_trailing (s : PyStr) (h : s.getLast? ≠ some '/') :
    rstripSlash s = s := by
  unfold rstripSlash
  rw [dropWhile_slash_reverse s h, List.reverse_reverse]

theorem rstripSlash_append_slash (s : PyStr) (h : s.getLast? ≠ some '/') :
    rstripSlash (s ++ ['/']) = s := by
  unfold rstripSlash
  rw [show (s ++ ['/']).reverse = '/' :: s.reverse by simp,
    List.dropWhile_cons_of_pos (by simp), dropWhile_slash_reverse s h,
    List.reverse_reverse]

theorem osPathJoin_clean (ld name : PyStr) (hld : ld ≠ [])
    (hlast : ld.getLast? ≠ some '/') (hhead : name.head? ≠ some '/') :
    osPathJoin ld name = ld ++ '/' :: name := by
  unfold osPathJoin
  rw [if_neg hhead, if_neg hld, if_neg hlast]

theorem osDirname_clean (ld name : PyStr) (hld : ld ≠ [])
    (hlast : ld.getLast? ≠ some '/') (hns : ∀ c ∈ name, c ≠ '/') :
    osDirname (ld ++ '/' :: name) = ld := by
  have hfind : (ld ++ '/' :: name).reverse.findIdx? (fun c => c = '/')
      = some name.length := by
    rw [show (ld ++ '/' :: name).reverse = name.reverse ++ '/' :: ld.reverse by simp]
    rw [List.findIdx?_append]
    have h1 : name.reverse.findIdx? (fun c => c = '/') = none := by
      rw [List.findIdx?_eq_none_iff]
      intro x hx
      exact decide_eq_false (hns x (List.mem_reverse.mp hx))
    rw [h1, Option.none_or, List.findIdx?_cons, if_pos (by simp)]
    simp
  have hlse : lastSlashEnd (ld ++ '/' :: name) = ld.length + 1 := by
    unfold lastSlashEnd
    rw [hfind]
    simp only [List.length_append, List.length_cons]
    omega
  unfold osDirname
  rw [hlse]
  rw [show (ld ++ '/' :: name).take (ld.length + 1) = ld ++ ['/'] by
    rw [show ld ++ '/' :: name = (ld ++ ['/']) ++ name by simp,
      List.take_left' (by simp)]]
  obtain ⟨c0, hgl⟩ : ∃ c0, ld.getLast? = some c0 := by
    cases hgl : ld.getLast? with
    | none => exact absurd (List.getLast?_eq_none_iff.mp hgl) hld
    | some c0 => exact ⟨c0, rfl⟩
  have hmem : c0 ∈ ld := List.mem_of_getLast?_eq_some hgl
  have hcne : c0 ≠ '/' := fun hh => hlast (hh ▸ hgl)
  have hany : (ld ++ ['/']).any (fun c => decide (c ≠ '/')) = true :=
    List.any_eq_true.mpr ⟨c0, List.mem_append_left _ hmem, by simp [hcne]⟩
  rw [if_pos (by simp only [hany, Bool.and_true]; simp)]
  exact rstripSlash_append_slash ld hlast

theorem underDirB_iff (root p : PyStr) :
    underDirB root p = true ↔ p = root ∨ (root ++ ['/']) <+: p := by
  simp [underDirB]

theorem underDirB_self (root : PyStr) : underDirB root root = true := by
  simp [underDirB]

theorem underDirB_child (ld name : PyStr) :
    underDirB ld (ld ++ '/' :: name) = true := by
  rw [underDirB_iff]
  right
  exact ⟨name, by simp⟩

theorem underDirB_extend (ld name p : PyStr)
    (h : underDirB (ld ++ '/' :: name) p = true) : underDirB ld p = true := by
  rw [underDirB_iff] at h ⊢
  have hpre : (ld ++ ['/']) <+: (ld ++ '/' :: name) := ⟨name, by simp⟩
  rcases h with rfl | h
  · right; exact hpre
  · right
    have h2 : (ld ++ '/' :: name) <+: (ld ++ '/' :: name) ++ ['/'] := ⟨['/'], rfl⟩
    exact hpre.trans (h2.trans h)

theorem childDir_getLast (ld name : PyStr) (h : name ≠ []) :
    (ld ++ '/' :: name).getLast? = name.getLast? := by
  rw [List.getLast?_append_of_ne_nil _ (by simp)]
  cases name with
  | nil => exact absurd rfl h
  | cons a n' => rw [List.getLast?_cons_cons]

theorem cleanName_spec (name : PyStr)
    (h : (!name.isEmpty && !name.contains '/') = true) :
    name ≠ [] ∧ ∀ c ∈ name, c ≠ '/' := by
  rw [Bool.and_eq_true, Bool.not_eq_true', Bool.not_eq_true'] at h
  obtain ⟨h1, h2⟩ := h
  refine ⟨List.isEmpty_eq_false.mp h1, ?_⟩
  intro c hc hcc
  have h2' : List.elem '/' name = false := h2
  have := List.elem_eq_true_of_mem (hcc ▸ hc)
  rw [this] at h2'
  cases h2'

theorem walkEntries_under (n : Nat) : ∀ es : List (PyStr × RTree), sizeOf es ≤ n →
    ∀ rd ld, ld ≠ [] → ld.getLast? ≠ some '/' → cleanEntries es = true →
    ∀ op ∈ walkEntries es rd ld, underDirB ld (opLocal op) = true := by
  induction n with
  | zero =>
    intro es hs
    cases es with
    | nil => simp at hs
    | cons e es' => simp [List.cons.sizeOf_spec] at hs
  | succ n ih =>
    intro es hs rd ld hne hlast hclean op hop
    cases es with
    | nil => simp [walkEntries] at hop
    | cons e es' =>
      obtain ⟨name, t⟩ := e
      rw [walkEntries, List.mem_append] at hop
      simp only [cleanEntries, Bool.and_eq_true] at hclean
      obtain ⟨⟨hcname, hct⟩, hces⟩ := hclean
      rcases hop with hop | hop
      case inr =>
        have hsz : sizeOf es' ≤ n := by
          simp only [List.cons.sizeOf_spec, Prod.mk.sizeOf_spec] at hs
          omega
        exact ih es' hsz rd ld hne hlast hces op hop
      case inl =>
        by_cases hd : name = pys "." ∨ name = pys ".."
        · rw [if_pos hd] at hop; cases hop
        · rw [if_neg hd] at hop
          obtain ⟨hnn, hns⟩ := cleanName_spec name (by rw [Bool.and_eq_true]; exact hcname)
          have hhead : name.head? ≠ some '/' := by
            intro hh
            exact hns '/' (List.mem_of_mem_head? (Option.mem_def.mpr hh)) rfl
          have hnlast : name.getLast? ≠ some '/' := by
            intro hh
            exact hns '/' (List.mem_of_getLast?_eq_some hh) rfl
          have hjoin : osPathJoin ld name = ld ++ '/' :: name :=
            osPathJoin_clean ld name hne hlast hhead
          rw [hjoin] at hop
          cases t with
          | file =>
            rw [download_sftp_dir] at hop
            rcases List.mem_cons.mp hop with rfl | hop
            · show underDirB ld (osDirname (ld ++ '/' :: name)) = true
              rw [osDirname_clean ld name hne hlast hns]
              exact underDirB_self ld
            · rw [List.mem_singleton] at hop
              subst hop
              exact underDirB_child ld name
          | dir es2 =>
            rw [download_sftp_dir] at hop
            rcases List.mem_cons.mp hop with rfl | hop
            · exact underDirB_child ld name
            · have hsz2 : sizeOf es2 ≤ n := by
                simp only [List.cons.sizeOf_spec, Prod.mk.sizeOf_spec,
                  RTree.dir.sizeOf_spec] at hs
                omega
              have hult := ih es2 hsz2 (rstripSlash rd ++ '/' :: name)
                (ld ++ '/' :: name) (by simp)
                (by rw [childDir_getLast ld name hnn]; exact hnlast)
                (by rwa [cleanTree] at hct) op hop
              exact underDirB_extend ld name (opLocal op) hult

/-- C2 (amended): when every name the remote listing reports is non-empty
and free of path separators, every local path the walker constructs lies
under the configured target directory.  Without that sanitisation the
invariant fails: the walker joins remote names verbatim, and a name
containing a separator (e.g. an absolute path) escapes — see the
counterexample. -/
theorem walker_stays_under_target (entries : List (PyStr × RTree)) (rd ld : PyStr)
    (hld : ld ≠ []) (hlast : ld.getLast? ≠ some '/')
    (hclean : cleanTree (.dir entries) = true) :
    ∀ op ∈ download_sftp_dir (.dir entries) rd ld, underDirB ld (opLocal op) = true := by
  intro op hop
  rw [download_sftp_dir] at hop
  rcases List.mem_cons.mp hop with rfl | hop
  · exact underDirB_self ld
  · exact walkEntries_under (sizeOf entries) entries le_rfl rd ld hld hlast
      (by rwa [cleanTree] at hclean) op hop

/-- C2 witness: a clean two-level tree stays under `/tmp/t`. -/
theorem walker_stays_under_target_witness :
    (pys "/tmp/t" ≠ []) ∧ ((pys "/tmp/t").getLast? ≠ some '/') ∧
    cleanTree (.dir [(pys "sub", .dir [(pys "f2.txt", .file)]), (pys "f1.txt", .file)])
      = true ∧
    ∀ op ∈ download_sftp_dir
        (.dir [(pys "sub", .dir [(pys "f2.txt", .file)]), (pys "f1.txt", .file)])
        (pys "/data") (pys "/tmp/t"),
      underDirB (pys "/tmp/t") (opLocal op) = true :=
  ⟨by decide, by decide, by decide,
   walker_stays_under_target _ _ _ (by decide) (by decide) (by decide)⟩

/-- C2 counterexample: the walker trusts remote names verbatim, so a remote
entry named `/etc/passwd` produces the local path `/etc/passwd`
(`os.path.join` discards the target prefix before an absolute component),
which does not lie under the target directory `/tmp/target`. -/
theorem walker_escape_counterexample :
    Op.fetchOp (pys "/data//etc/passwd") (pys "/etc/passwd")
      ∈ download_sftp_dir (.dir [(pys "/etc/passwd", .file)])
          (pys "/data") (pys "/tmp/target") ∧
    underDirB (pys "/tmp/target")
      (opLocal (Op.fetchOp (pys "/data//etc/passwd") (pys "/etc/passwd"))) = false :=
  ⟨by decide, by decide⟩
